import Mathlib

/-!
Shallow embedding of the audiogridder `ProcessorChain` core
(src/Server/Source/ProcessorChain.cpp) and proofs about the claims of the
natural-language specification.

A `Stage` models one hosted `Processor` as seen by the chain: the fields are
exactly the observations the chain code makes on a processor (chain index,
latency, tail, suspended/bypass flag, double-precision support, extra
channels, sidechain need, whether its `processBlock` reported having run, and
its parameter values).  A `Chain` models the `ProcessorChain` state touched by
the translated member functions.
-/

namespace AG

structure Stage where
  index : Int
  latency : Int
  tail : Rat
  suspended : Bool
  supportsDouble : Bool
  extraIn : Int
  extraOut : Int
  needsDisabledSidechain : Bool
  ran : Bool
  paramValue : Int → Rat

structure Chain where
  processors : List Stage
  hasSidechain : Bool
  sidechainDisabled : Bool
  extraChannels : Int
  supportsDoublePrecision : Bool
  latencySamples : Int
  tailSecs : Rat
  blockSize : Int
  totalNumInputChannels : Int
  totalNumOutputChannels : Int

/-- The reverse scan of `ProcessorChain::updateNoLock` (lines 286-294): walk
the processor list from the back (here: the already reversed list from the
front), skip suspended processors, and return the first tail found, 0 when
none remains. -/
def lastTailRev : List Stage → Rat
  | [] => 0
  | p :: rest => if p.suspended then lastTailRev rest else p.tail

/-- `ProcessorChain::updateNoLock` (lines 265-295): recompute the latency sum,
double-precision conjunction, extra-channel maximum and sidechain-disabled
flag in one pass, store the latency sum when it changed, then scan from the
end for the tail of the last non-suspended processor. -/
def updateNoLock (ch : Chain) : Chain :=
  let r := ch.processors.foldl
    (fun (acc : Int × Bool × Int × Bool) p =>
      (acc.1 + p.latency,
       acc.2.1 && p.supportsDouble,
       max (max acc.2.2.1 p.extraIn) p.extraOut,
       ch.hasSidechain && (acc.2.2.2 || p.needsDisabledSidechain)))
    (0, true, 0, false)
  { ch with
    latencySamples := if r.1 ≠ ch.latencySamples then r.1 else ch.latencySamples,
    supportsDoublePrecision := r.2.1,
    extraChannels := r.2.2.1,
    sidechainDisabled := r.2.2.2,
    tailSecs := lastTailRev ch.processors.reverse }

/-- `ProcessorChain::addProcessor` (lines 237-243): set the new processor's
chain index to the current size, append it, recompute the aggregates. -/
def addProcessor (ch : Chain) (p : Stage) : Chain :=
  updateNoLock
    { ch with processors := ch.processors ++ [{ p with index := ch.processors.length }] }

/-- The erase loop of `ProcessorChain::delProcessor` (lines 249-255): remove
the element whose running position counter equals `idx`; a negative or
too-large `idx` matches no position and removes nothing. -/
def delLoop : List Stage → Int → List Stage
  | [], _ => []
  | p :: rest, i => if i = 0 then rest else p :: delLoop rest (i - 1)

/-- `ProcessorChain::delProcessor` (lines 245-257): erase the stage at `idx`
(if any), then recompute the aggregates.  No surviving stage's chain index is
touched. -/
def delProcessor (ch : Chain) (idx : Int) : Chain :=
  updateNoLock { ch with processors := delLoop ch.processors idx }

/-- `Processor::setChainIndex` applied through the list: overwrite the stored
chain index of the element at position `i` (when in range). -/
def setIdx (l : List Stage) (i : Int) : List Stage :=
  match l[i.toNat]? with
  | some p => l.set i.toNat { p with index := i }
  | none => l

/-- `ProcessorChain::exchangeProcessors` (lines 306-314): when both indices
are in range, swap the two entries and reassign both chain indices; otherwise
do nothing.  No aggregate is recomputed. -/
def exchangeProcessors (ch : Chain) (idxA idxB : Int) : Chain :=
  if idxA > -1 ∧ idxA.toNat < ch.processors.length ∧
     idxB > -1 ∧ idxB.toNat < ch.processors.length then
    let l0 := ch.processors
    let l1 := match l0[idxA.toNat]?, l0[idxB.toNat]? with
      | some pa, some pb => (l0.set idxA.toNat pb).set idxB.toNat pa
      | _, _ => l0
    { ch with processors := setIdx (setIdx l1 idxA) idxB }
  else ch

/-- `ProcessorChain::getProcessor` (lines 297-304): the stage at `index` when
`index > -1` and in range, the null handle otherwise; the chain itself is
returned unchanged to record that the query does not mutate it. -/
def getProcessor (ch : Chain) (index : Int) : Option Stage × Chain :=
  if index > -1 ∧ index.toNat < ch.processors.length then
    (ch.processors[index.toNat]?, ch)
  else (none, ch)

/-- `ProcessorChain::getParameterValue` (lines 316-325): the parameter value
of the stage at `idx` when the index is in range and the handle is non-null,
0 otherwise; the chain is returned unchanged. -/
def getParameterValue (ch : Chain) (idx paramIdx : Int) : Rat × Chain :=
  if idx > -1 ∧ idx.toNat < ch.processors.length then
    match ch.processors[idx.toNat]? with
    | some p => (p.paramValue paramIdx, ch)
    | none => (0, ch)
  else (0, ch)

/-- `ProcessorChain::addPluginProcessor` (lines 220-235).  The construction of
the new `Processor` and the outcome of `Processor::load` are external to the
chain; they enter the model as the stage value `newProc`, the flag `loadOk`
and the message `loadErr` that a failing load leaves in `err`.  The
multi-mono branch sets `err` and never constructs or appends a stage; the
other branch appends the stage whether or not the load succeeded. -/
def addPluginProcessor (ch : Chain) (multiMono : Bool) (newProc : Stage)
    (loadOk : Bool) (loadErr : String) : Bool × String × Chain :=
  if multiMono then
    (false, "Multi-Mono layout not yet implemented", ch)
  else
    (loadOk, loadErr, addProcessor ch newProc)

/-- The latency accumulation loop of `ProcessorChain::processBlockInternal`
(lines 370-376): a stage contributes its latency only when its `processBlock`
returned `true`. -/
def blockLatencyLoop : List Stage → Int → Int
  | [], acc => acc
  | p :: rest, acc => blockLatencyLoop rest (if p.ran then acc + p.latency else acc)

/-- `ProcessorChain::processBlockInternal` (lines 357-384), restricted to its
latency bookkeeping: accumulate the per-block latency over the stages that
ran, and when the total differs from the recorded value store it and report
the change (the `Bool` component models the `setLatencySamples` host
notification being fired). -/
def processBlockInternal (ch : Chain) : Chain × Bool :=
  let latency := blockLatencyLoop ch.processors 0
  if latency ≠ ch.latencySamples then
    ({ ch with latencySamples := latency }, true)
  else (ch, false)

/-- The do-while loop of `ProcessorChain::preProcessBlocks` (lines 393-397),
with explicit fuel standing for the unbounded C++ loop: each step pushes one
block of `bs` samples, the loop exits as soon as the running total reaches
16384.  The result is the total sample count and the number of blocks
processed. -/
def preRollGo (bs : Int) : Nat → Int → Int × Nat
  | 0, acc => (acc, 0)
  | fuel + 1, acc =>
    if acc + bs < 16384 then
      let r := preRollGo bs fuel (acc + bs)
      (r.1, r.2 + 1)
    else (acc + bs, 1)

/-- `ProcessorChain::preProcessBlocks` (lines 386-398): the silent buffer is
sized to `jmax(totalIns, totalOuts) + extraChannels` channels, and silent
blocks are pushed until at least 16384 samples went through.  Returns the
channel count, the samples pushed and the block count. -/
def preProcessBlocks (ch : Chain) : Int × Int × Nat :=
  let channels := max ch.totalNumInputChannels ch.totalNumOutputChannels + ch.extraChannels
  let r := preRollGo ch.blockSize 16384 0
  (channels, r.1, r.2)

/-- A JUCE `AudioChannelSet` as used by `ProcessorChain::updateChannels`. -/
inductive ChannelSet where
  | mono : ChannelSet
  | stereo : ChannelSet
  | discrete : Int → ChannelSet
deriving DecidableEq

/-- The input-bus construction of `ProcessorChain::updateChannels`
(lines 54-67), including the sidechain branch that passes `channelsIn` to
`discreteChannels` (line 66). -/
def chainInputBuses (channelsIn channelsSC : Int) : List ChannelSet :=
  (if channelsIn = 1 then [ChannelSet.mono]
   else if channelsIn = 2 then [ChannelSet.stereo]
   else if channelsIn > 0 then [ChannelSet.discrete channelsIn]
   else []) ++
  (if channelsSC = 1 then [ChannelSet.mono]
   else if channelsSC = 2 then [ChannelSet.stereo]
   else if channelsSC > 0 then [ChannelSet.discrete channelsIn]
   else [])

/-- The output-bus construction of `ProcessorChain::updateChannels`
(lines 68-74). -/
def chainOutputBuses (channelsOut : Int) : List ChannelSet :=
  if channelsOut = 1 then [ChannelSet.mono]
  else if channelsOut = 2 then [ChannelSet.stereo]
  else if channelsOut > 0 then [ChannelSet.discrete channelsOut]
  else []

/-- A supported bus layout of a processor, reduced to the observations made
by the named-target scan of `ProcessorChain::setProcessorBusesLayout`: its
input and output channel counts and the description string of its outputs. -/
structure PLayout where
  chIn : Int
  chOut : Int
  outDesc : String
deriving DecidableEq

/-- The named-target scan of `ProcessorChain::setProcessorBusesLayout`
(lines 108-128): walk the supported layouts; on a layout whose output
description equals the target, take it immediately (break) when the chain has
no inputs or the layout's channel counts are equal, and otherwise keep it
only when its input count strictly exceeds the best input count seen so far
(which starts at 0).  Returns the selected layout with the final
`targetChIn`/`targetChOut` accumulator values. -/
def namedScan (chainChIn : Int) (target : String) :
    List PLayout → Int → Int → Option PLayout → Option PLayout × Int × Int
  | [], tIn, tOut, best => (best, tIn, tOut)
  | l :: rest, tIn, tOut, best =>
    if l.outDesc = target then
      if chainChIn = 0 ∨ l.chIn = l.chOut then (some l, l.chIn, l.chOut)
      else if l.chIn > tIn then namedScan chainChIn target rest l.chIn l.chOut (some l)
      else namedScan chainChIn target rest tIn tOut best
    else namedScan chainChIn target rest tIn tOut best

/-- Modelled from the spec's words for the amended C7: among a list of
layouts, the first one with the largest strictly positive input channel
count, none when every input count is ≤ 0. -/
def bestByChIn : List PLayout → Option PLayout
  | [] => none
  | l :: rest =>
    match bestByChIn rest with
    | none => if 0 < l.chIn then some l else none
    | some b => if b.chIn ≤ l.chIn ∧ 0 < l.chIn then some l else some b

/-- Modelled from the spec's words for the amended C7: restrict to the
layouts whose output description matches the target, take the first immediate
candidate (chain input count 0 or equal in/out counts) when one exists, and
otherwise the first match with the largest strictly positive input count. -/
def specNamedSelect (chainChIn : Int) (target : String) (ls : List PLayout) :
    Option PLayout :=
  match (ls.filter fun l => l.outDesc == target).find?
      (fun l => chainChIn == 0 || l.chIn == l.chOut) with
  | some l => some l
  | none => bestByChIn (ls.filter fun l => l.outDesc == target)

/-- The chain-index bookkeeping check: every stage's stored `index` equals
its position, counting from `n`. -/
def indexOkFrom (n : Int) : List Stage → Bool
  | [] => true
  | p :: rest => p.index == n && indexOkFrom (n + 1) rest

/-- `stages[i].index == i` for every position of the list. -/
def indexOk (l : List Stage) : Bool :=
  indexOkFrom 0 l

end AG

namespace AG

/-- A loaded, active example stage: latency 3 samples, tail 1 second. -/
def stA : Stage :=
  { index := 0, latency := 3, tail := 1, suspended := false, supportsDouble := true,
    extraIn := 0, extraOut := 0, needsDisabledSidechain := false, ran := true,
    paramValue := fun _ => 0 }

/-- A second example stage: latency 5 samples, tail 2 seconds. -/
def stB : Stage :=
  { stA with latency := 5, tail := 2 }

/-- An empty example chain configured for 2-in/2-out with block size 512. -/
def chain0 : Chain :=
  { processors := [], hasSidechain := false, sidechainDisabled := false,
    extraChannels := 0, supportsDoublePrecision := true, latencySamples := 0,
    tailSecs := 0, blockSize := 512, totalNumInputChannels := 2,
    totalNumOutputChannels := 2 }

/-- The example chain after appending `stA` then `stB`. -/
def chain2 : Chain := addProcessor (addProcessor chain0 stA) stB

end AG

namespace AG

theorem blockLatencyLoop_eq (l : List Stage) (acc : Int) :
    blockLatencyLoop l acc = acc + ((l.filter fun p => p.ran).map fun p => p.latency).sum := by
  induction l generalizing acc with
  | nil => simp [blockLatencyLoop]
  | cons p rest ih =>
    by_cases h : p.ran = true
    · simp [blockLatencyLoop, h, ih, List.filter_cons]
      ring
    · simp only [Bool.not_eq_true] at h
      simp [blockLatencyLoop, h, ih, List.filter_cons]

theorem lastTailRev_eq_head (l : List Stage) :
    lastTailRev l = (((l.filter fun p => !p.suspended).head?).map fun p => p.tail).getD 0 := by
  induction l with
  | nil => simp [lastTailRev]
  | cons p rest ih =>
    by_cases h : p.suspended = true
    · simp [lastTailRev, h, ih, List.filter_cons]
    · simp only [Bool.not_eq_true] at h
      simp [lastTailRev, h, List.filter_cons]

theorem updateNoLock_tail (ch : Chain) :
    (updateNoLock ch).tailSecs =
      (((ch.processors.filter fun p => !p.suspended).getLast?).map fun p => p.tail).getD 0 := by
  show lastTailRev ch.processors.reverse = _
  rw [lastTailRev_eq_head, List.filter_reverse, List.head?_reverse]

end AG

namespace AG

/-- C9: for every call to addPluginProcessor with the multi-mono flag set,
the operation returns failure with the explicit not-implemented error message
and the chain is unchanged: no stage is constructed or appended. -/
theorem C9_multiMono_not_implemented (ch : Chain) (newProc : Stage)
    (loadOk : Bool) (loadErr : String) :
    addPluginProcessor ch true newProc loadOk loadErr =
      (false, "Multi-Mono layout not yet implemented", ch) := by
  simp [addPluginProcessor]

/-- C2 counterexample: on the empty chain, a stage whose load fails makes
addPluginProcessor return failure, yet the stage list has grown to length 1:
the failed stage was appended, so the chain is not left unchanged. -/
theorem C2_cex_failed_load_still_appends :
    (addPluginProcessor chain0 false stA false "load failed").1 = false ∧
      (addPluginProcessor chain0 false stA false "load failed").2.2.processors.length = 1 := by
  constructor
  · rfl
  · rfl

/-- C2 amended: when the underlying unit cannot be loaded (load returns
failure) and the multi-mono flag is clear, addPluginProcessor returns failure
but the stage is appended anyway: the stage list grows by exactly one and the
new stage sits at the end with its chain index set to the old length. -/
theorem C2_failed_load_appends (ch : Chain) (newProc : Stage) (loadErr : String) :
    (addPluginProcessor ch false newProc false loadErr).1 = false ∧
      (addPluginProcessor ch false newProc false loadErr).2.2.processors.length =
        ch.processors.length + 1 ∧
      (addPluginProcessor ch false newProc false loadErr).2.2.processors.getLast? =
        some { newProc with index := ch.processors.length } := by
  refine ⟨rfl, ?_, ?_⟩
  · simp [addPluginProcessor, addProcessor, updateNoLock]
  · simp [addPluginProcessor, addProcessor, updateNoLock, List.getLast?_concat]

/-- C10: a stage index that is negative or not less than the list's size
makes getParameterValue return 0 and getProcessor return the null handle,
and both leave the chain unchanged. -/
theorem C10_out_of_range_queries (ch : Chain) (idx paramIdx : Int)
    (h : idx < 0 ∨ ch.processors.length ≤ idx.toNat) :
    getParameterValue ch idx paramIdx = (0, ch) ∧
      getProcessor ch idx = (none, ch) := by
  have hc : ¬(idx > -1 ∧ idx.toNat < ch.processors.length) := by
    rcases h with h | h
    · intro hk
      omega
    · intro hk
      omega
  constructor
  · simp [getParameterValue, hc]
  · simp [getProcessor, hc]

/-- C10 witness: index -3 on the concrete two-stage chain is negative, the
parameter query returns 0 and the stage query returns the null handle, the
chain unchanged. -/
theorem C10_witness :
    ((-3 : Int) < 0 ∨ chain2.processors.length ≤ (-3 : Int).toNat) ∧
      getParameterValue chain2 (-3) 7 = (0, chain2) ∧
      getProcessor chain2 (-3) = (none, chain2) := by
  refine ⟨Or.inl (by decide), ?_, ?_⟩
  · exact (C10_out_of_range_queries chain2 (-3) 7 (Or.inl (by decide))).1
  · exact (C10_out_of_range_queries chain2 (-3) 7 (Or.inl (by decide))).2

/-- C3 evaluation at the failing input: updateChannels(4, 2, 3) builds the
sidechain bus from channelsIn, producing discrete-4 where the specified rule
(sidechain count 3 > 2 yields discrete-3) requires discrete-3. -/
theorem C3_sidechain_bus_uses_channelsIn :
    chainInputBuses 4 3 = [ChannelSet.discrete 4, ChannelSet.discrete 4] ∧
      chainInputBuses 4 3 ≠ [ChannelSet.discrete 4, ChannelSet.discrete 3] := by
  constructor
  · rfl
  · decide

end AG

namespace AG

/-- C5: after updateNoLock, the recorded tail equals the tail reported by the
last stage in order that is not suspended, and equals 0 when the chain is
empty or every stage is suspended. -/
theorem C5_tail_is_last_active (ch : Chain) :
    (updateNoLock ch).tailSecs =
      (((ch.processors.filter fun p => !p.suspended).getLast?).map fun p => p.tail).getD 0 ∧
      ((∀ p ∈ ch.processors, p.suspended = true) → (updateNoLock ch).tailSecs = 0) := by
  refine ⟨updateNoLock_tail ch, fun hall => ?_⟩
  rw [updateNoLock_tail ch]
  have hf : ch.processors.filter (fun p => !p.suspended) = [] := by
    rw [List.filter_eq_nil_iff]
    intro p hp
    simp [hall p hp]
  rw [hf]
  rfl

/-- C5 witness: on the chain holding the two active example stages the
recorded tail is the tail of the last stage, and a chain of one suspended
stage reports tail 0 through the all-suspended branch. -/
theorem C5_witness :
    (updateNoLock chain2).tailSecs =
      (((chain2.processors.filter fun p => !p.suspended).getLast?).map fun p => p.tail).getD 0 ∧
      (∀ p ∈ (updateNoLock { chain0 with
          processors := [{ stA with suspended := true }] }).processors, p.suspended = true) ∧
      (updateNoLock { chain0 with
          processors := [{ stA with suspended := true }] }).tailSecs = 0 := by
  refine ⟨(C5_tail_is_last_active chain2).1, ?_, ?_⟩
  · decide
  · exact (C5_tail_is_last_active _).2 (by decide)

/-- C6: the per-block latency total of processBlockInternal sums the latency
of exactly the stages whose processBlock reported having run, and the change
notification fires exactly when this total differs from the previously
recorded latency, never on a block whose total is identical. -/
theorem C6_block_latency_accumulation (ch : Chain) :
    (processBlockInternal ch).1.latencySamples =
      ((ch.processors.filter fun p => p.ran).map fun p => p.latency).sum ∧
      ((processBlockInternal ch).2 = true ↔
        ((ch.processors.filter fun p => p.ran).map fun p => p.latency).sum ≠
          ch.latencySamples) := by
  have hb : blockLatencyLoop ch.processors 0 =
      ((ch.processors.filter fun p => p.ran).map fun p => p.latency).sum := by
    rw [blockLatencyLoop_eq]
    ring
  by_cases h : blockLatencyLoop ch.processors 0 = ch.latencySamples
  · constructor
    · simp [processBlockInternal, h]
      rw [← hb, h]
    · simp [processBlockInternal, h]
      rw [← hb, h]
  · rw [hb] at h
    constructor
    · simp [processBlockInternal, hb, h]
    · simp [processBlockInternal, hb, h]

theorem preRollGo_sum (bs : Int) (fuel : Nat) (acc : Int) :
    (preRollGo bs fuel acc).1 = acc + (preRollGo bs fuel acc).2 * bs := by
  induction fuel generalizing acc with
  | zero => simp [preRollGo]
  | succ n ih =>
    by_cases h : acc + bs < 16384
    · simp only [preRollGo, if_pos h]
      rw [ih (acc + bs)]
      push_cast
      ring
    · simp only [preRollGo, if_neg h]
      push_cast
      ring

theorem preRollGo_ge (bs : Int) (fuel : Nat) (acc : Int)
    (h : (16384 : Int) ≤ acc + fuel * bs) :
    (16384 : Int) ≤ (preRollGo bs fuel acc).1 := by
  induction fuel generalizing acc with
  | zero =>
    simp only [preRollGo]
    simpa using h
  | succ n ih =>
    by_cases hlt : acc + bs < 16384
    · simp only [preRollGo, if_pos hlt]
      apply ih (acc + bs)
      have : ((n : Int) + 1) * bs = bs + n * bs := by ring
      push_cast at h
      linarith
    · simp only [preRollGo, if_neg hlt]
      linarith

theorem preRollGo_blocks (bs : Int) (fuel : Nat) (acc : Int) (h : 0 < fuel) :
    1 ≤ (preRollGo bs fuel acc).2 := by
  cases fuel with
  | zero => omega
  | succ n =>
    by_cases hlt : acc + bs < 16384
    · simp only [preRollGo, if_pos hlt]
      omega
    · simp only [preRollGo, if_neg hlt]
      omega

/-- C8: with a positive block size the pre-roll loop terminates having pushed
at least 16384 samples, processes at least one silent block, pushes exactly
one block of blockSize samples per iteration, and sizes each block to the
chain's channel count (max of total ins and outs) plus the extra channels. -/
theorem C8_preroll (ch : Chain) (hbs : 0 < ch.blockSize) :
    (16384 : Int) ≤ (preProcessBlocks ch).2.1 ∧
      1 ≤ (preProcessBlocks ch).2.2 ∧
      (preProcessBlocks ch).2.1 = (preProcessBlocks ch).2.2 * ch.blockSize ∧
      (preProcessBlocks ch).1 =
        max ch.totalNumInputChannels ch.totalNumOutputChannels + ch.extraChannels := by
  refine ⟨?_, ?_, ?_, rfl⟩
  · apply preRollGo_ge ch.blockSize 16384 0
    have h1 : (16384 : Int) * 1 ≤ 16384 * ch.blockSize := by
      apply mul_le_mul_of_nonneg_left _ (by norm_num)
      omega
    push_cast
    linarith
  · exact preRollGo_blocks ch.blockSize 16384 0 (by norm_num)
  · have := preRollGo_sum ch.blockSize 16384 0
    simpa [preProcessBlocks] using this

/-- C8 witness: the concrete 2-in/2-out chain with block size 512 pre-rolls
32 blocks of 512 samples for a total of exactly 16384, in silent buffers of
2 channels (the chain's channel maximum, with 0 extra channels). -/
theorem C8_witness :
    0 < chain0.blockSize ∧
      (16384 : Int) ≤ (preProcessBlocks chain0).2.1 ∧
      1 ≤ (preProcessBlocks chain0).2.2 ∧
      (preProcessBlocks chain0).2.1 = (preProcessBlocks chain0).2.2 * chain0.blockSize ∧
      (preProcessBlocks chain0).1 =
        max chain0.totalNumInputChannels chain0.totalNumOutputChannels +
          chain0.extraChannels := by
  exact ⟨by decide, C8_preroll chain0 (by decide)⟩

end AG

namespace AG

/-- C4 counterexample: on the two-stage example chain (tails 1 and 2, both
active, recorded tail 2), swapping the stages leaves the recorded tail at 2
while the new last non-bypassed stage has tail 1: the tail is not recomputed
by the swap. -/
theorem C4_cex_swap_keeps_stale_tail :
    (exchangeProcessors chain2 0 1).tailSecs = 2 ∧
      ((((exchangeProcessors chain2 0 1).processors.filter
          fun p => !p.suspended).getLast?).map fun p => p.tail).getD 0 = 1 ∧
      (2 : Rat) ≠ 1 := by
  refine ⟨rfl, rfl, by decide⟩

/-- C4 amended: exchangeProcessors recomputes nothing: the recorded tail and
the recorded total latency keep their pre-swap values for every pair of
indices, and when either index is invalid the whole chain is unchanged. -/
theorem C4_swap_recomputes_nothing (ch : Chain) (i j : Int) :
    (exchangeProcessors ch i j).tailSecs = ch.tailSecs ∧
      (exchangeProcessors ch i j).latencySamples = ch.latencySamples ∧
      (¬(i > -1 ∧ i.toNat < ch.processors.length ∧
         j > -1 ∧ j.toNat < ch.processors.length) →
        exchangeProcessors ch i j = ch) := by
  by_cases h : i > -1 ∧ i.toNat < ch.processors.length ∧
      j > -1 ∧ j.toNat < ch.processors.length
  · refine ⟨?_, ?_, fun hn => absurd h hn⟩
    · simp [exchangeProcessors, h]
    · simp [exchangeProcessors, h]
  · refine ⟨?_, ?_, fun _ => ?_⟩
    · simp [exchangeProcessors, h]
    · simp [exchangeProcessors, h]
    · simp [exchangeProcessors, h]

/-- C4 witness: swapping with the invalid index -1 on the two-stage example
chain changes nothing. -/
theorem C4_witness :
    (¬((-1 : Int) > -1 ∧ (-1 : Int).toNat < chain2.processors.length ∧
       (0 : Int) > -1 ∧ (0 : Int).toNat < chain2.processors.length)) ∧
      exchangeProcessors chain2 (-1) 0 = chain2 := by
  refine ⟨by decide, (C4_swap_recomputes_nothing chain2 (-1) 0).2.2 (by decide)⟩

end AG

namespace AG

theorem indexOkFrom_iff (n : Int) (l : List Stage) :
    indexOkFrom n l = true ↔
      ∀ (k : Nat) (p : Stage), l[k]? = some p → p.index = n + k := by
  induction l generalizing n with
  | nil => simp [indexOkFrom]
  | cons q rest ih =>
    simp only [indexOkFrom, Bool.and_eq_true, beq_iff_eq, ih]
    constructor
    · rintro ⟨h0, hrest⟩ k p hk
      cases k with
      | zero =>
        simp only [List.getElem?_cons_zero, Option.some.injEq] at hk
        subst hk
        simpa using h0
      | succ m =>
        simp only [List.getElem?_cons_succ] at hk
        have := hrest m p hk
        push_cast at this ⊢
        linarith
    · intro h
      constructor
      · have := h 0 q (by simp)
        simpa using this
      · intro k p hk
        have := h (k + 1) p (by simpa using hk)
        push_cast at this ⊢
        linarith

theorem indexOk_iff (l : List Stage) :
    indexOk l = true ↔ ∀ (k : Nat) (p : Stage), l[k]? = some p → p.index = k := by
  rw [indexOk, indexOkFrom_iff]
  simp

theorem updateNoLock_processors (ch : Chain) :
    (updateNoLock ch).processors = ch.processors := rfl

theorem setIdx_length (l : List Stage) (i : Int) :
    (setIdx l i).length = l.length := by
  unfold setIdx
  cases h : l[i.toNat]? with
  | none => rfl
  | some p => simp

theorem setIdx_getElem?_self (l : List Stage) (i : Int) (h : i.toNat < l.length) :
    (setIdx l i)[i.toNat]? = l[i.toNat]?.map fun p => { p with index := i } := by
  unfold setIdx
  rw [List.getElem?_eq_getElem h]
  simp [List.getElem?_set_self, h]

theorem setIdx_getElem?_ne (l : List Stage) (i : Int) (k : Nat) (h : i.toNat ≠ k) :
    (setIdx l i)[k]? = l[k]? := by
  unfold setIdx
  cases hg : l[i.toNat]? with
  | none => rfl
  | some p => simp [List.getElem?_set_ne h]

theorem delLoop_sublist (l : List Stage) (idx : Int) :
    (delLoop l idx).Sublist l := by
  induction l generalizing idx with
  | nil => simp [delLoop]
  | cons p rest ih =>
    by_cases h : idx = 0
    · simp [delLoop, h]
    · simp only [delLoop, if_neg h]
      exact (ih (idx - 1)).cons₂ p

/-- C1 counterexample: build a two-stage chain by two appends (indices 0 and
1), then delete the stage at index 0: the surviving stage keeps its stored
index 1 while sitting at position 0, so the index invariant fails after this
mutation. -/
theorem C1_cex_delete_breaks_invariant :
    indexOk chain2.processors = true ∧
      indexOk (delProcessor chain2 0).processors = false := by
  exact ⟨rfl, rfl⟩

theorem addProcessor_indexOk (ch : Chain) (p : Stage)
    (hok : indexOk ch.processors = true) :
    indexOk (addProcessor ch p).processors = true := by
  have hproc : (addProcessor ch p).processors =
      ch.processors ++ [{ p with index := (ch.processors.length : Int) }] := rfl
  rw [hproc, indexOk_iff]
  rw [indexOk_iff] at hok
  intro k q hk
  rcases Nat.lt_or_ge k ch.processors.length with hlt | hge
  · rw [List.getElem?_append_left hlt] at hk
    exact hok k q hk
  · have hkeq : k = ch.processors.length := by
      by_contra hne
      have hge1 : ch.processors.length + 1 ≤ k := by omega
      rw [List.getElem?_eq_none (by simpa using hge1)] at hk
      exact Option.noConfusion hk
    subst hkeq
    rw [List.getElem?_concat_length] at hk
    have hq : q = { p with index := (ch.processors.length : Int) } := by
      exact ((Option.some.injEq _ _).mp hk).symm
    subst hq
    rfl

theorem exchangeProcessors_indexOk (ch : Chain) (i j : Int)
    (hok : indexOk ch.processors = true) :
    indexOk (exchangeProcessors ch i j).processors = true := by
  by_cases h : i > -1 ∧ i.toNat < ch.processors.length ∧
      j > -1 ∧ j.toNat < ch.processors.length
  · obtain ⟨hi, hilen, hj, hjlen⟩ := h
    have hpa : ch.processors[i.toNat]? = some (ch.processors.get ⟨i.toNat, hilen⟩) := by
      simp
    have hpb : ch.processors[j.toNat]? = some (ch.processors.get ⟨j.toNat, hjlen⟩) := by
      simp
    have hproc : (exchangeProcessors ch i j).processors =
        setIdx (setIdx ((ch.processors.set i.toNat (ch.processors.get ⟨j.toNat, hjlen⟩)).set
          j.toNat (ch.processors.get ⟨i.toNat, hilen⟩)) i) j := by
      unfold exchangeProcessors
      rw [if_pos ⟨hi, hilen, hj, hjlen⟩]
      simp only [hpa, hpb]
    rw [hproc, indexOk_iff]
    rw [indexOk_iff] at hok
    intro k q hk
    have hlen1 : ((ch.processors.set i.toNat (ch.processors.get ⟨j.toNat, hjlen⟩)).set
        j.toNat (ch.processors.get ⟨i.toNat, hilen⟩)).length = ch.processors.length := by
      simp
    by_cases hkj : j.toNat = k
    · subst hkj
      rw [setIdx_getElem?_self _ j (by rw [setIdx_length, hlen1]; exact hjlen)] at hk
      rcases ho : (setIdx ((ch.processors.set i.toNat (ch.processors.get ⟨j.toNat, hjlen⟩)).set
          j.toNat (ch.processors.get ⟨i.toNat, hilen⟩)) i)[j.toNat]? with _ | r
      · rw [ho] at hk
        exact Option.noConfusion hk
      · rw [ho] at hk
        simp only [Option.map_some', Option.some.injEq] at hk
        subst hk
        show j = (j.toNat : Int)
        omega
    · by_cases hki : i.toNat = k
      · subst hki
        rw [setIdx_getElem?_ne _ j _ hkj] at hk
        rw [setIdx_getElem?_self _ i (by rw [hlen1]; exact hilen)] at hk
        rcases ho : ((ch.processors.set i.toNat (ch.processors.get ⟨j.toNat, hjlen⟩)).set
            j.toNat (ch.processors.get ⟨i.toNat, hilen⟩))[i.toNat]? with _ | r
        · rw [ho] at hk
          exact Option.noConfusion hk
        · rw [ho] at hk
          simp only [Option.map_some', Option.some.injEq] at hk
          subst hk
          show i = (i.toNat : Int)
          omega
      · rw [setIdx_getElem?_ne _ j _ hkj, setIdx_getElem?_ne _ i _ hki,
          List.getElem?_set_ne hkj, List.getElem?_set_ne hki] at hk
        exact hok k q hk
  · simp only [exchangeProcessors, if_neg h]
    exact hok

/-- C1 amended: addProcessor and exchangeProcessors preserve the invariant
stages[i].index == i, but delProcessor never reindexes: every surviving stage
is kept with exactly its old stored index (the surviving list is a sublist of
the old one), so the invariant can fail once a stage other than the last is
deleted. -/
theorem C1_index_invariant (ch : Chain) (p : Stage) (i j d : Int)
    (hok : indexOk ch.processors = true) :
    indexOk (addProcessor ch p).processors = true ∧
      indexOk (exchangeProcessors ch i j).processors = true ∧
      (delProcessor ch d).processors.Sublist ch.processors := by
  refine ⟨addProcessor_indexOk ch p hok, exchangeProcessors_indexOk ch i j hok, ?_⟩
  rw [delProcessor, updateNoLock_processors]
  exact delLoop_sublist ch.processors d

/-- C1 witness: on the concrete two-stage chain the invariant holds, is
preserved by an append and by a valid swap, and deletion keeps the surviving
stages with their old stored indices. -/
theorem C1_witness :
    indexOk chain2.processors = true ∧
      indexOk (addProcessor chain2 stA).processors = true ∧
      indexOk (exchangeProcessors chain2 0 1).processors = true ∧
      (delProcessor chain2 0).processors.Sublist chain2.processors := by
  refine ⟨by decide, ?_, ?_, ?_⟩
  · exact (C1_index_invariant chain2 stA 0 1 0 (by decide)).1
  · exact (C1_index_invariant chain2 stA 0 1 0 (by decide)).2.1
  · exact (C1_index_invariant chain2 stA 0 1 0 (by decide)).2.2

end AG

namespace AG

/-- Proof-internal generalisation of `specNamedSelect` to a running best
input-channel count `tIn` and running `best` candidate, matching the
accumulator of the scan loop. -/
def specNamedSelectGo (chainChIn : Int) (target : String) (ls : List PLayout)
    (tIn : Int) (best : Option PLayout) : Option PLayout :=
  match (ls.filter fun l => l.outDesc == target).find?
      (fun l => chainChIn == 0 || l.chIn == l.chOut) with
  | some l => some l
  | none =>
    match bestByChIn (ls.filter fun l => l.outDesc == target) with
    | some m => if tIn < m.chIn then some m else best
    | none => best

theorem namedScan_aux (c : Int) (t : String) (ls : List PLayout) :
    ∀ (tIn tOut : Int) (best : Option PLayout), 0 ≤ tIn →
      (namedScan c t ls tIn tOut best).1 = specNamedSelectGo c t ls tIn best := by
  induction ls with
  | nil =>
    intro tIn tOut best h0
    simp [namedScan, specNamedSelectGo, bestByChIn]
  | cons l rest ih =>
    intro tIn tOut best h0
    by_cases hd : l.outDesc = t
    · have hfilter : ((l :: rest).filter fun x => x.outDesc == t) =
          l :: (rest.filter fun x => x.outDesc == t) := by
        simp [List.filter_cons, hd]
      by_cases him : c = 0 ∨ l.chIn = l.chOut
      · have himb : ((fun x : PLayout => c == 0 || x.chIn == x.chOut) l) = true := by
          simpa using him
        simp only [namedScan, if_pos hd, if_pos him]
        unfold specNamedSelectGo
        rw [hfilter,
          List.find?_cons_of_pos (p := fun x : PLayout => c == 0 || x.chIn == x.chOut) _ himb]
      · have himb : ¬(((fun x : PLayout => c == 0 || x.chIn == x.chOut) l) = true) := by
          simpa using him
        have hfcons : ((l :: rest.filter fun x => x.outDesc == t).find?
            (fun x => c == 0 || x.chIn == x.chOut)) =
            ((rest.filter fun x => x.outDesc == t).find?
              (fun x => c == 0 || x.chIn == x.chOut)) :=
          List.find?_cons_of_neg (p := fun x : PLayout => c == 0 || x.chIn == x.chOut) _ himb
        by_cases hgt : tIn < l.chIn
        · rw [namedScan, if_pos hd, if_neg him, if_pos hgt, ih l.chIn l.chOut (some l) (by omega)]
          unfold specNamedSelectGo
          rw [hfilter, hfcons]
          cases hf : (rest.filter fun x => x.outDesc == t).find?
              (fun x => c == 0 || x.chIn == x.chOut) with
          | some x => rfl
          | none =>
            simp only
            rw [show bestByChIn (l :: (rest.filter fun x => x.outDesc == t)) =
                match bestByChIn (rest.filter fun x => x.outDesc == t) with
                | none => if 0 < l.chIn then some l else none
                | some b => if b.chIn ≤ l.chIn ∧ 0 < l.chIn then some l else some b from rfl]
            cases hbb : bestByChIn (rest.filter fun x => x.outDesc == t) with
            | none =>
              simp only
              rw [if_pos (show 0 < l.chIn by omega)]
              simp only
              rw [if_pos hgt]
            | some m =>
              simp only
              by_cases hml : m.chIn ≤ l.chIn
              · rw [if_pos (show m.chIn ≤ l.chIn ∧ 0 < l.chIn from ⟨hml, by omega⟩)]
                simp only
                rw [if_neg (show ¬l.chIn < m.chIn by omega), if_pos hgt]
              · rw [if_neg (show ¬(m.chIn ≤ l.chIn ∧ 0 < l.chIn) from fun hc => hml hc.1)]
                simp only
                rw [if_pos (show l.chIn < m.chIn by omega),
                  if_pos (show tIn < m.chIn by omega)]
        · rw [namedScan, if_pos hd, if_neg him, if_neg hgt, ih tIn tOut best h0]
          unfold specNamedSelectGo
          rw [hfilter, hfcons]
          cases hf : (rest.filter fun x => x.outDesc == t).find?
              (fun x => c == 0 || x.chIn == x.chOut) with
          | some x => rfl
          | none =>
            simp only
            rw [show bestByChIn (l :: (rest.filter fun x => x.outDesc == t)) =
                match bestByChIn (rest.filter fun x => x.outDesc == t) with
                | none => if 0 < l.chIn then some l else none
                | some b => if b.chIn ≤ l.chIn ∧ 0 < l.chIn then some l else some b from rfl]
            cases hbb : bestByChIn (rest.filter fun x => x.outDesc == t) with
            | none =>
              simp only
              by_cases hl0 : 0 < l.chIn
              · rw [if_pos hl0]
                simp only
                rw [if_neg (show ¬tIn < l.chIn by omega)]
              · rw [if_neg hl0]
            | some m =>
              simp only
              by_cases hml : m.chIn ≤ l.chIn ∧ 0 < l.chIn
              · rw [if_pos hml]
                simp only
                rw [if_neg (show ¬tIn < m.chIn by omega),
                  if_neg (show ¬tIn < l.chIn by omega)]
              · rw [if_neg hml]
    · have hdb : (l.outDesc == t) = false := by
        simpa using hd
      rw [namedScan, if_neg hd, ih tIn tOut best h0]
      unfold specNamedSelectGo
      rw [List.filter_cons, hdb]
      simp only [Bool.false_eq_true, if_neg (show ¬False from id)]

end AG

namespace AG

theorem bestByChIn_pos (ls : List PLayout) (m : PLayout)
    (h : bestByChIn ls = some m) : 0 < m.chIn := by
  induction ls generalizing m with
  | nil => simp [bestByChIn] at h
  | cons l rest ih =>
    rw [show bestByChIn (l :: rest) =
        match bestByChIn rest with
        | none => if 0 < l.chIn then some l else none
        | some b => if b.chIn ≤ l.chIn ∧ 0 < l.chIn then some l else some b from rfl] at h
    cases hbb : bestByChIn rest with
    | none =>
      rw [hbb] at h
      simp only at h
      by_cases hl0 : 0 < l.chIn
      · rw [if_pos hl0] at h
        cases h
        exact hl0
      · rw [if_neg hl0] at h
        exact Option.noConfusion h
    | some b =>
      rw [hbb] at h
      simp only at h
      by_cases hbl : b.chIn ≤ l.chIn ∧ 0 < l.chIn
      · rw [if_pos hbl] at h
        cases h
        exact hbl.2
      · rw [if_neg hbl] at h
        cases h
        exact ih _ hbb

/-- C7 counterexample: with chain input count 2 and target name X, the single
supported layout (0 inputs, 2 outputs, description X) matches the name and is
the matching candidate with the largest input channel count, yet the scan
selects nothing: a zero-input match never beats the running best input count,
which starts at 0. -/
theorem C7_cex_zero_input_match_not_selected :
    (namedScan 2 "X" [PLayout.mk 0 2 "X"] 0 0 none).1 = none ∧
      ([PLayout.mk 0 2 "X"].filter fun l => l.outDesc == "X") = [PLayout.mk 0 2 "X"] ∧
      ¬((2 : Int) = 0 ∨ (0 : Int) = 2) := by
  refine ⟨rfl, rfl, by decide⟩

/-- C7 amended: for a named target output layout, the scan considers exactly
the supported layouts whose output description matches the name, selects the
first such candidate when the chain input count is 0 or the candidate's in
and out channel counts are equal, and otherwise selects the first matching
candidate with the largest strictly positive input channel count; when every
match has input channel count at most 0 and none qualifies immediately, no
candidate is selected. -/
theorem C7_named_layout_selection (chainChIn : Int) (target : String)
    (procLayouts : List PLayout) :
    (namedScan chainChIn target procLayouts 0 0 none).1 =
      specNamedSelect chainChIn target procLayouts := by
  rw [namedScan_aux chainChIn target procLayouts 0 0 none le_rfl]
  unfold specNamedSelectGo specNamedSelect
  cases hf : (procLayouts.filter fun l => l.outDesc == target).find?
      (fun l => chainChIn == 0 || l.chIn == l.chOut) with
  | some x => rfl
  | none =>
    simp only
    cases hbb : bestByChIn (procLayouts.filter fun l => l.outDesc == target) with
    | none => rfl
    | some m =>
      simp only
      rw [if_pos (bestByChIn_pos _ m hbb)]

end AG
